import Mathlib

/-!
Verification of the lock-free hierarchical profiler (`src/profiler.h`).

The repository ships only the profiler's header: the data model
(`TimingEvent`, `ThreadRingBuffer`, `ProfileEntry`, `DisplayData`), the
constants (`RING_BUFFER_SIZE = 4096`, `MAX_FRAMES_FOR_AVERAGING = 360`,
`UPDATE_INTERVAL_MS = 1000`), the inline `SetEnabled` / `IsEnabled`, and the
declarations of the operations.  The bodies of `SubmitEvent`,
`ProcessEvents`, `CalculateHierarchy`, the `ScopedTimer` constructor and
destructor and the snapshot publisher are not in the repository, so those
operations are modelled from the specification (sections 4.1-4.4 of the
design document); every such definition carries a doc comment starting
"Modelled from the spec:".

Machine integers are embedded as `Nat` with explicit reductions
(`% 256` for the `uint8_t` depth); times are exact rationals.
-/

namespace Profiler

/-- Ring buffer capacity, from the source:
`static constexpr size_t RING_BUFFER_SIZE = 4096;` (a power of two). -/
def RING_BUFFER_SIZE : Nat := 4096

/-- Rolling-window bound, from the source:
`static constexpr int MAX_FRAMES_FOR_AVERAGING = 360;`. -/
def MAX_FRAMES_FOR_AVERAGING : Nat := 360

/-- Publish throttle interval, from the source:
`static constexpr int UPDATE_INTERVAL_MS = 1000;`. -/
def UPDATE_INTERVAL_MS : ℚ := 1000

/-- `Profiler::TimingEvent` from the source header.  `depth` is a `uint8_t`
there; here it is a `Nat` that is always the true depth reduced `% 256`
(see `mkTimingEvent`).  `parentName` is a possibly-null C string. -/
structure TimingEvent where
  sectionName : String
  parentName : Option String
  durationMs : ℚ
  threadId : Nat
  depth : Nat
  isRenderThread : Bool
  deriving DecidableEq

/-- Builds a `TimingEvent` from a capture at true nesting depth `trueDepth`.
The source stores the depth in a `uint8_t` (`TimingEvent::depth`,
`ScopedTimer::m_depth`), so the stored value is the depth modulo 256. -/
def mkTimingEvent (sectionName : String) (parentName : Option String)
    (durationMs : ℚ) (threadId : Nat) (trueDepth : Nat)
    (isRenderThread : Bool) : TimingEvent :=
  { sectionName := sectionName
    parentName := parentName
    durationMs := durationMs
    threadId := threadId
    depth := trueDepth % 256
    isRenderThread := isRenderThread }

/-- `Profiler::ThreadRingBuffer` from the source header: a slot array of
capacity `RING_BUFFER_SIZE` (slots start out unwritten, hence `Option`),
a write index owned by the producing thread, a read index owned by the
aggregator, a liveness flag, thread identity, and the thread-local scope
stack used to compute parent/depth at capture time. -/
structure ThreadRingBuffer where
  events : Nat → Option TimingEvent
  writeIndex : Nat
  readIndex : Nat
  isValid : Bool
  isRenderThread : Bool
  threadId : Nat
  scopeStack : List String

/-- The freshly initialised per-thread buffer (`writeIndex{ 0 }`,
`readIndex{ 0 }`, `isValid{ true }`, empty scope stack). -/
def initBuffer : ThreadRingBuffer :=
  { events := fun _ => none
    writeIndex := 0
    readIndex := 0
    isValid := true
    isRenderThread := false
    threadId := 0
    scopeStack := [] }

/-- Modelled from the spec: `Profiler::SubmitEvent` / the Scoped Timer's
submission step (spec 4.1), whose body is not in the repository.  It
"writes the event at `writeIndex & (capacity−1)` then atomically advances
`writeIndex`"; since the capacity 4096 is a power of two, masking by 4095
is reduction modulo `RING_BUFFER_SIZE`.  Never fails and never blocks:
a full buffer is overwritten, not rejected. -/
def submitEvent (b : ThreadRingBuffer) (e : TimingEvent) : ThreadRingBuffer :=
  { b with
    events := Function.update b.events (b.writeIndex % RING_BUFFER_SIZE) (some e)
    writeIndex := b.writeIndex + 1 }

/-- A ring-buffer state together with the ghost history of all events ever
submitted to it, in submission order.  The history is what the invariants
relate the slot contents to. -/
structure RBTrace where
  buf : ThreadRingBuffer
  submitted : List TimingEvent

/-- The producer's step: submit one event, appending it to the history. -/
def traceSubmit (t : RBTrace) (e : TimingEvent) : RBTrace :=
  { buf := submitEvent t.buf e, submitted := t.submitted ++ [e] }

/-- Modelled from the spec: the aggregator's drain step (spec 4.3, step 1).
It reads events up to a snapshot `k` of the write index taken once per
cycle and advances only `readIndex` to `k`; slot contents, the write
index and the history are untouched. -/
def traceDrain (t : RBTrace) (k : Nat) : RBTrace :=
  { buf := { t.buf with readIndex := k }, submitted := t.submitted }

/-- The producer/aggregator step relation on a single thread's buffer. -/
inductive RBStep : RBTrace → RBTrace → Prop
  | submit (t : RBTrace) (e : TimingEvent) : RBStep t (traceSubmit t e)
  | drain (t : RBTrace) (k : Nat) (h1 : t.buf.readIndex ≤ k)
      (h2 : k ≤ t.buf.writeIndex) : RBStep t (traceDrain t k)

/-- The empty trace: fresh buffer, no history. -/
def initTrace : RBTrace := { buf := initBuffer, submitted := [] }

/-- Reachability under the producer/aggregator step relation. -/
def RBReachable (t : RBTrace) : Prop :=
  Relation.ReflTransGen RBStep initTrace t

/-- The ring-buffer invariant: the write index counts the submissions, the
read index never exceeds it, and every submitted event recent enough not
to have been overwritten (the last `RING_BUFFER_SIZE` submissions) is in
its slot `i % RING_BUFFER_SIZE`. -/
def RBInv (t : RBTrace) : Prop :=
  t.buf.writeIndex = t.submitted.length ∧
  t.buf.readIndex ≤ t.buf.writeIndex ∧
  ∀ i, i < t.buf.writeIndex → t.buf.writeIndex ≤ i + RING_BUFFER_SIZE →
    t.buf.events (i % RING_BUFFER_SIZE) = t.submitted[i]?

theorem rbInv_init : RBInv initTrace := by
  refine ⟨rfl, le_refl 0, ?_⟩
  intro i hi
  simp [initTrace, initBuffer] at hi

theorem mod_eq_of_close {i w : Nat} (hi : i < w)
    (hrecent : w < i + RING_BUFFER_SIZE)
    (hmod : i % RING_BUFFER_SIZE = w % RING_BUFFER_SIZE) : False := by
  have hle : i ≤ w := le_of_lt hi
  have hdvd : RING_BUFFER_SIZE ∣ (w - i) :=
    (Nat.modEq_iff_dvd' hle).mp hmod
  have hpos : 0 < w - i := by omega
  have := Nat.le_of_dvd hpos hdvd
  omega

theorem rbInv_step {s t : RBTrace} (hstep : RBStep s t) (hinv : RBInv s) :
    RBInv t := by
  obtain ⟨hlen, hrw, hslots⟩ := hinv
  cases hstep with
  | submit e =>
    refine ⟨?_, ?_, ?_⟩
    · simp [traceSubmit, submitEvent, hlen]
    · simp only [traceSubmit, submitEvent]
      omega
    · intro i hi hrecent
      simp only [traceSubmit, submitEvent] at hi hrecent ⊢
      by_cases hiw : i = s.buf.writeIndex
      · subst hiw
        rw [Function.update_same, hlen]
        rw [List.getElem?_concat_length]
      · have hil : i < s.buf.writeIndex := by omega
        have hne : i % RING_BUFFER_SIZE ≠ s.buf.writeIndex % RING_BUFFER_SIZE := by
          intro hmod
          exact mod_eq_of_close hil (by omega) hmod
        rw [Function.update_noteq hne]
        rw [List.getElem?_append_left (by omega)]
        exact hslots i hil (by omega)
  | drain k h1 h2 =>
    refine ⟨hlen, ?_, ?_⟩
    · simpa [traceDrain] using h2
    · intro i hi hrecent
      simpa [traceDrain] using hslots i (by simpa [traceDrain] using hi)
        (by simpa [traceDrain] using hrecent)

theorem rbInv_reachable {t : RBTrace} (h : RBReachable t) : RBInv t := by
  induction h with
  | refl => exact rbInv_init
  | @tail b c _ hstep ih => exact rbInv_step hstep ih

/-- `Profiler::ProfileEntry` from the source header.  Times are exact
rationals; `lastUpdateTime` is a point on the aggregator's clock. -/
structure ProfileEntry where
  displayName : String := ""
  totalTime : ℚ := 0
  selfTime : ℚ := 0
  callCount : Nat := 0
  accumulatedTime : ℚ := 0
  accumulatedSelfTime : ℚ := 0
  accumulatedCalls : Nat := 0
  frameCount : Nat := 0
  rollingAverageTime : ℚ := 0
  rollingSelfTime : ℚ := 0
  maxTimeInLastSecond : ℚ := 0
  lastUpdateTime : ℚ := 0
  parentPath : String := ""
  childPaths : List String := []
  depth : Nat := 0
  parentPercentage : ℚ := 0
  totalPercentage : ℚ := 0
  deriving DecidableEq

/-- The aggregator's entry table (`std::unordered_map<std::string,
ProfileEntry>`), embedded as an association list keyed by the full
hierarchical path. -/
abbrev EntryTable := List (String × ProfileEntry)

/-- Map lookup. -/
def lookupEntry : EntryTable → String → Option ProfileEntry
  | [], _ => none
  | (k, v) :: rest, key => if k = key then some v else lookupEntry rest key

/-- Pointwise transformation of a table that keeps every key. -/
def mapTable (f : String → ProfileEntry → ProfileEntry) (tbl : EntryTable) :
    EntryTable :=
  tbl.map fun kv => (kv.1, f kv.1 kv.2)

theorem lookupEntry_mapTable (f : String → ProfileEntry → ProfileEntry)
    (tbl : EntryTable) (key : String) :
    lookupEntry (mapTable f tbl) key = (lookupEntry tbl key).map (f key) := by
  induction tbl with
  | nil => rfl
  | cons kv rest ih =>
    by_cases h : kv.1 = key
    · simp [mapTable, lookupEntry, h]
    · simpa [mapTable, lookupEntry, h] using ih

/-- Modelled from the spec: the entry created the first time a path is seen
in the fold (spec 4.3, step 2).  The event carries the full hierarchical
path (built at capture time as parent path + "/" + section name); the
fresh entry records the event's duration, one call, the capture-time
parent path and depth, and is stamped with the aggregation time. -/
def freshEntry (now : ℚ) (e : TimingEvent) : ProfileEntry :=
  { displayName := e.sectionName
    totalTime := e.durationMs
    callCount := 1
    lastUpdateTime := now
    parentPath := e.parentName.getD ""
    depth := e.depth }

/-- Modelled from the spec: one fold step of `Profiler::ProcessEvents`
(spec 4.3, step 2), whose body is not in the repository: "for each event,
build/update a ProfileEntry keyed by the full path.  Update total time and
call count for the current frame". -/
def foldEvent (now : ℚ) : EntryTable → TimingEvent → EntryTable
  | [], e => [(e.sectionName, freshEntry now e)]
  | (k, v) :: rest, e =>
    if k = e.sectionName then
      (k, { v with
              totalTime := v.totalTime + e.durationMs
              callCount := v.callCount + 1
              lastUpdateTime := now }) :: rest
    else (k, v) :: foldEvent now rest e

/-- Sum of the current totals of the direct children of `key`. -/
def childTotalSum (tbl : EntryTable) (key : String) : ℚ :=
  ((tbl.filter fun kv => kv.2.parentPath = key).map fun kv =>
    kv.2.totalTime).sum

/-- Modelled from the spec: the second pass of the fold (spec 4.3, step 2):
"self time = total time − sum of direct children's total time, computed
after all events for the period are folded". -/
def computeSelfTimes (tbl : EntryTable) : EntryTable :=
  mapTable (fun key v =>
    { v with selfTime := v.totalTime - childTotalSum tbl key }) tbl

/-- Modelled from the spec: `Profiler::ProcessEvents`, whose body is not in
the repository: fold every drained event of the period into the entry
table (pass one), then compute self times (pass two). -/
def processEvents (now : ℚ) (events : List TimingEvent) : EntryTable :=
  computeSelfTimes (events.foldl (foldEvent now) [])

/-- Division guarded against a zero denominator: the safe default is 0. -/
def safePct (x total : ℚ) : ℚ := if total = 0 then 0 else 100 * x / total

/-- Modelled from the spec: `Profiler::CalculateHierarchy`, whose body is
not in the repository (spec 4.3, step 5): each entry's percentage of its
parent's time and of the group's total time; roots use the group total;
an entry whose declared parent is missing is treated as an implicit root;
a zero reference time yields 0% instead of dividing by zero. -/
def hierPct (tbl : EntryTable) (totalTime : ℚ) (v : ProfileEntry) : ℚ :=
  if v.parentPath = "" then safePct v.totalTime totalTime
  else
    match lookupEntry tbl v.parentPath with
    | some parent => safePct v.totalTime parent.totalTime
    | none => safePct v.totalTime totalTime

/-- See the doc comment above `hierPct`: the map over the table applying
it and the group-total percentage. -/
def calculateHierarchy (tbl : EntryTable) (totalTime : ℚ) : EntryTable :=
  mapTable (fun _ v =>
    { v with
        parentPercentage := hierPct tbl totalTime v
        totalPercentage := safePct v.totalTime totalTime }) tbl

/-- The thread group's total time: the sum of the totals of the root
entries. -/
def groupTotal (tbl : EntryTable) : ℚ :=
  ((tbl.filter fun kv => kv.2.parentPath = "").map fun kv =>
    kv.2.totalTime).sum

/-- One aggregation of a cycle's events into a freshly hierarchised table. -/
def aggregateCycleTable (now : ℚ) (events : List TimingEvent) : EntryTable :=
  let tbl := processEvents now events
  calculateHierarchy tbl (groupTotal tbl)

/-- The current total recorded for `key` (0 when absent). -/
def totalOf (tbl : EntryTable) (key : String) : ℚ :=
  match lookupEntry tbl key with
  | none => 0
  | some v => v.totalTime

/-- The parent path recorded for `key`, when present. -/
def parentOf (tbl : EntryTable) (key : String) : Option String :=
  (lookupEntry tbl key).map fun v => v.parentPath

/-- The depth recorded for `key`, when present. -/
def depthOf (tbl : EntryTable) (key : String) : Option Nat :=
  (lookupEntry tbl key).map fun v => v.depth

/-- Total duration carried by a list of events. -/
def sumDur (l : List TimingEvent) : ℚ := (l.map fun e => e.durationMs).sum

theorem totalOf_foldEvent (now : ℚ) (tbl : EntryTable) (e : TimingEvent)
    (key : String) :
    totalOf (foldEvent now tbl e) key =
      totalOf tbl key + if e.sectionName = key then e.durationMs else 0 := by
  induction tbl with
  | nil =>
    by_cases h : e.sectionName = key <;>
      simp [foldEvent, totalOf, lookupEntry, freshEntry, h]
  | cons kv rest ih =>
    obtain ⟨k, v⟩ := kv
    by_cases hk : k = e.sectionName
    · subst hk
      by_cases hkey : e.sectionName = key
      · subst hkey
        simp [foldEvent, totalOf, lookupEntry]
      · simp [foldEvent, totalOf, lookupEntry, hkey]
    · by_cases hkey : k = key
      · subst hkey
        have hs : ¬ e.sectionName = k := fun h => hk h.symm
        simp [foldEvent, totalOf, lookupEntry, hk, hs]
      · simp only [foldEvent, if_neg hk]
        simpa [totalOf, lookupEntry, hkey] using ih

theorem totalOf_foldl (now : ℚ) (key : String) (evs : List TimingEvent) :
    ∀ tbl : EntryTable,
      totalOf (evs.foldl (foldEvent now) tbl) key =
        totalOf tbl key + sumDur (evs.filter fun e => e.sectionName = key) := by
  induction evs with
  | nil => intro tbl; simp [sumDur]
  | cons e rest ih =>
    intro tbl
    rw [List.foldl_cons, ih]
    rw [totalOf_foldEvent]
    by_cases h : e.sectionName = key
    · simp [h, sumDur]
      ring
    · simp [h, sumDur]

theorem parentOf_foldEvent (now : ℚ) (tbl : EntryTable) (e : TimingEvent)
    (key : String) :
    parentOf (foldEvent now tbl e) key =
      match parentOf tbl key with
      | some p => some p
      | none =>
          if e.sectionName = key then some (e.parentName.getD "") else none := by
  induction tbl with
  | nil =>
    by_cases h : e.sectionName = key <;>
      simp [foldEvent, parentOf, lookupEntry, freshEntry, h]
  | cons kv rest ih =>
    obtain ⟨k, v⟩ := kv
    by_cases hk : k = e.sectionName
    · subst hk
      by_cases hkey : e.sectionName = key
      · subst hkey
        simp [foldEvent, parentOf, lookupEntry]
      · simp [foldEvent, parentOf, lookupEntry, hkey]
        cases lookupEntry rest key <;> simp
    · by_cases hkey : k = key
      · subst hkey
        have hs : ¬ e.sectionName = k := fun h => hk h.symm
        simp [foldEvent, parentOf, lookupEntry, hk, hs]
      · simp only [foldEvent, if_neg hk]
        have h1 : parentOf ((k, v) :: foldEvent now rest e) key
            = parentOf (foldEvent now rest e) key := by
          simp [parentOf, lookupEntry, hkey]
        have h2 : parentOf ((k, v) :: rest) key = parentOf rest key := by
          simp [parentOf, lookupEntry, hkey]
        rw [h1, ih, h2]

theorem parentOf_foldl (now : ℚ) (key : String) (evs : List TimingEvent) :
    ∀ tbl : EntryTable,
      parentOf (evs.foldl (foldEvent now) tbl) key =
        match parentOf tbl key with
        | some p => some p
        | none =>
            (evs.find? fun e => e.sectionName = key).map fun e =>
              e.parentName.getD "" := by
  induction evs with
  | nil =>
    intro tbl
    cases hp : parentOf tbl key <;> simp [hp]
  | cons e rest ih =>
    intro tbl
    rw [List.foldl_cons, ih, parentOf_foldEvent]
    cases hp : parentOf tbl key with
    | some p => simp
    | none =>
      by_cases h : e.sectionName = key
      · rw [List.find?_cons_of_pos _ (by simpa using h)]
        simp [h]
      · rw [List.find?_cons_of_neg _ (by simpa using h)]
        simp [h]

theorem depthOf_foldEvent (now : ℚ) (tbl : EntryTable) (e : TimingEvent)
    (key : String) :
    depthOf (foldEvent now tbl e) key =
      match depthOf tbl key with
      | some d => some d
      | none => if e.sectionName = key then some e.depth else none := by
  induction tbl with
  | nil =>
    by_cases h : e.sectionName = key <;>
      simp [foldEvent, depthOf, lookupEntry, freshEntry, h]
  | cons kv rest ih =>
    obtain ⟨k, v⟩ := kv
    by_cases hk : k = e.sectionName
    · subst hk
      by_cases hkey : e.sectionName = key
      · subst hkey
        simp [foldEvent, depthOf, lookupEntry]
      · simp [foldEvent, depthOf, lookupEntry, hkey]
        cases lookupEntry rest key <;> simp
    · by_cases hkey : k = key
      · subst hkey
        have hs : ¬ e.sectionName = k := fun h => hk h.symm
        simp [foldEvent, depthOf, lookupEntry, hk, hs]
      · simp only [foldEvent, if_neg hk]
        have h1 : depthOf ((k, v) :: foldEvent now rest e) key
            = depthOf (foldEvent now rest e) key := by
          simp [depthOf, lookupEntry, hkey]
        have h2 : depthOf ((k, v) :: rest) key = depthOf rest key := by
          simp [depthOf, lookupEntry, hkey]
        rw [h1, ih, h2]

theorem depthOf_foldl (now : ℚ) (key : String) (evs : List TimingEvent) :
    ∀ tbl : EntryTable,
      depthOf (evs.foldl (foldEvent now) tbl) key =
        match depthOf tbl key with
        | some d => some d
        | none =>
            (evs.find? fun e => e.sectionName = key).map fun e => e.depth := by
  induction evs with
  | nil =>
    intro tbl
    cases hp : depthOf tbl key <;> simp [hp]
  | cons e rest ih =>
    intro tbl
    rw [List.foldl_cons, ih, depthOf_foldEvent]
    cases hp : depthOf tbl key with
    | some d => simp
    | none =>
      by_cases h : e.sectionName = key
      · rw [List.find?_cons_of_pos _ (by simpa using h)]
        simp [h]
      · rw [List.find?_cons_of_neg _ (by simpa using h)]
        simp [h]

theorem sumDur_cons (e : TimingEvent) (l : List TimingEvent) :
    sumDur (e :: l) = e.durationMs + sumDur l := by
  simp [sumDur]

theorem sum_filter_le_of_imp (l : List TimingEvent)
    (p q : TimingEvent → Prop) [DecidablePred p] [DecidablePred q]
    (himp : ∀ e ∈ l, p e → q e) (hnn : ∀ e ∈ l, 0 ≤ e.durationMs) :
    sumDur (l.filter fun e => p e) ≤ sumDur (l.filter fun e => q e) := by
  induction l with
  | nil => simp [sumDur]
  | cons e rest ih =>
    have hrest := ih (fun x hx => himp x (List.mem_cons_of_mem e hx))
      (fun x hx => hnn x (List.mem_cons_of_mem e hx))
    by_cases hp : p e
    · have hq : q e := himp e (List.mem_cons_self e rest) hp
      rw [List.filter_cons_of_pos (by simpa using hp),
        List.filter_cons_of_pos (by simpa using hq), sumDur_cons, sumDur_cons]
      exact add_le_add_left hrest _
    · by_cases hq : q e
      · have he : 0 ≤ e.durationMs := hnn e (List.mem_cons_self e rest)
        rw [List.filter_cons_of_neg (by simpa using hp),
          List.filter_cons_of_pos (by simpa using hq), sumDur_cons]
        exact hrest.trans (le_add_of_nonneg_left he)
      · rw [List.filter_cons_of_neg (by simpa using hp),
          List.filter_cons_of_neg (by simpa using hq)]
        exact hrest

theorem sumDur_nonneg {l : List TimingEvent}
    (hnn : ∀ e ∈ l, 0 ≤ e.durationMs) : 0 ≤ sumDur l := by
  refine List.sum_nonneg ?_
  intro x hx
  obtain ⟨e, he, rfl⟩ := List.mem_map.mp hx
  exact hnn e he

theorem childTotalSum_mapTable (g : String → ProfileEntry → ProfileEntry)
    (hp : ∀ k v, (g k v).parentPath = v.parentPath)
    (ht : ∀ k v, (g k v).totalTime = v.totalTime)
    (tbl : EntryTable) (key : String) :
    childTotalSum (mapTable g tbl) key = childTotalSum tbl key := by
  induction tbl with
  | nil => rfl
  | cons kv rest ih =>
    by_cases h : kv.2.parentPath = key
    · simp only [childTotalSum, mapTable, List.map_cons, List.filter_cons] at ih ⊢
      simp [h, hp, ht, childTotalSum, mapTable] at ih ⊢
      simpa [hp, ht] using ih
    · simp only [childTotalSum, mapTable, List.map_cons, List.filter_cons] at ih ⊢
      simp [h, hp, ht, childTotalSum, mapTable] at ih ⊢
      simpa [hp, ht] using ih

theorem selfTime_processEvents (now : ℚ) (evs : List TimingEvent)
    (k : String) (v : ProfileEntry)
    (h : lookupEntry (processEvents now evs) k = some v) :
    v.selfTime = v.totalTime - childTotalSum (processEvents now evs) k := by
  have hchild : childTotalSum (processEvents now evs) k
      = childTotalSum (evs.foldl (foldEvent now) []) k := by
    unfold processEvents computeSelfTimes
    apply childTotalSum_mapTable
    · intro a b; rfl
    · intro a b; rfl
  have hl : lookupEntry (processEvents now evs) k
      = (lookupEntry (evs.foldl (foldEvent now) []) k).map
          (fun w => { w with selfTime := w.totalTime - childTotalSum (evs.foldl (foldEvent now) []) k }) := by
    unfold processEvents computeSelfTimes
    exact lookupEntry_mapTable _ _ _
  rw [hl] at h
  cases hb : lookupEntry (evs.foldl (foldEvent now) []) k with
  | none =>
    rw [hb] at h
    exact absurd h (by simp)
  | some v0 =>
    rw [hb] at h
    have hv : { v0 with selfTime := v0.totalTime - childTotalSum (evs.foldl (foldEvent now) []) k } = v := by
      simpa using h
    rw [← hv, hchild]

/-- The scenario's first event: ("Render", null, 5.0 ms, depth 0). -/
def renderEvent : TimingEvent :=
  { sectionName := "Render"
    parentName := none
    durationMs := 5
    threadId := 1
    depth := 0
    isRenderThread := true }

/-- The scenario's second event: ("Render/Draw", "Render", 3.0 ms, depth 1). -/
def drawEvent : TimingEvent :=
  { sectionName := "Render/Draw"
    parentName := some "Render"
    durationMs := 3
    threadId := 1
    depth := 1
    isRenderThread := true }

/-- The entry the fold produces for a cycle holding only `renderEvent`. -/
def renderOnlyEntry : ProfileEntry :=
  { displayName := "Render"
    totalTime := 5
    selfTime := 5
    callCount := 1
    lastUpdateTime := 0
    parentPath := ""
    depth := 0 }

/-- C1: folding the cycle's two events ("Render", null, 5.0ms, depth 0) and
("Render/Draw", "Render", 3.0ms, depth 1) yields entry "Render" with
totalTime 5 and selfTime 2 and entry "Render/Draw" with totalTime 3,
selfTime 3 and parentPercentage 60; and in general, after the two-pass
fold every entry's selfTime equals its totalTime minus the sum of the
totalTime of its direct children. -/
theorem fold_selfTime_and_scenario :
    ((lookupEntry (aggregateCycleTable 0 [renderEvent, drawEvent])
        "Render").map (fun v => (v.totalTime, v.selfTime)) = some (5, 2) ∧
      (lookupEntry (aggregateCycleTable 0 [renderEvent, drawEvent])
        "Render/Draw").map
          (fun v => (v.totalTime, v.selfTime, v.parentPercentage)) =
        some (3, 3, 60)) ∧
    ∀ (now : ℚ) (evs : List TimingEvent) (k : String) (v : ProfileEntry),
      lookupEntry (processEvents now evs) k = some v →
      v.selfTime = v.totalTime - childTotalSum (processEvents now evs) k := by
  constructor
  · constructor
    · simp [aggregateCycleTable, processEvents, computeSelfTimes,
        calculateHierarchy, hierPct, mapTable, lookupEntry, foldEvent,
        freshEntry, childTotalSum, groupTotal, safePct, renderEvent,
        drawEvent] <;>
        norm_num
    · simp [aggregateCycleTable, processEvents, computeSelfTimes,
        calculateHierarchy, hierPct, mapTable, lookupEntry, foldEvent,
        freshEntry, childTotalSum, groupTotal, safePct, renderEvent,
        drawEvent] <;>
        norm_num
  · intro now evs k v h
    exact selfTime_processEvents now evs k v h

theorem fold_selfTime_and_scenario_witness :
    lookupEntry (processEvents 0 [renderEvent]) "Render" =
        some renderOnlyEntry ∧
      renderOnlyEntry.selfTime =
        renderOnlyEntry.totalTime -
          childTotalSum (processEvents 0 [renderEvent]) "Render" :=
  ⟨by simp [processEvents, computeSelfTimes, mapTable, lookupEntry,
      foldEvent, freshEntry, childTotalSum, renderEvent, renderOnlyEntry],
    fold_selfTime_and_scenario.2 0 [renderEvent] "Render" renderOnlyEntry
      (by simp [processEvents, computeSelfTimes, mapTable, lookupEntry,
        foldEvent, freshEntry, childTotalSum, renderEvent, renderOnlyEntry])⟩

/-- A stream of pairwise-distinguishable events: the i-th submission
carries duration i. -/
def mkEvt (i : Nat) : TimingEvent :=
  { sectionName := "scope"
    parentName := none
    durationMs := (i : ℚ)
    threadId := 0
    depth := 0
    isRenderThread := false }

/-- The trace after n submissions of mkEvt 0 .. mkEvt (n−1) and no drains. -/
def iterTrace : Nat → RBTrace
  | 0 => initTrace
  | n + 1 => traceSubmit (iterTrace n) (mkEvt n)

theorem iterTrace_reachable (n : Nat) : RBReachable (iterTrace n) := by
  induction n with
  | zero => exact Relation.ReflTransGen.refl
  | succ n ih => exact Relation.ReflTransGen.tail ih (RBStep.submit _ _)

theorem iterTrace_write (n : Nat) : (iterTrace n).buf.writeIndex = n := by
  induction n with
  | zero => rfl
  | succ n ih => simp [iterTrace, traceSubmit, submitEvent, ih]

theorem iterTrace_read (n : Nat) : (iterTrace n).buf.readIndex = 0 := by
  induction n with
  | zero => rfl
  | succ n ih => simp [iterTrace, traceSubmit, submitEvent, ih]

theorem iterTrace_submitted (n : Nat) :
    (iterTrace n).submitted = (List.range n).map mkEvt := by
  induction n with
  | zero => rfl
  | succ n ih => simp [iterTrace, traceSubmit, ih, List.range_succ]

theorem iterTrace_slot {i n : Nat} (hi : i < n)
    (hrec : n ≤ i + RING_BUFFER_SIZE) :
    (iterTrace n).buf.events (i % RING_BUFFER_SIZE) = some (mkEvt i) := by
  obtain ⟨hlen, hrw, hslots⟩ := rbInv_reachable (iterTrace_reachable n)
  have hs := hslots i (by rw [iterTrace_write]; exact hi)
    (by rw [iterTrace_write]; exact hrec)
  rw [hs, iterTrace_submitted, List.getElem?_map, List.getElem?_range hi]
  rfl

/-- C2 counterexample: after 4097 submissions and no drain, the state is
reachable, index 0 is in the unconsumed range [readIndex, writeIndex),
but slot `0 % RING_BUFFER_SIZE` no longer holds submission 0: it has been
overwritten by submission 4096.  So the slot range `[read, write)` mod
capacity does not, in every reachable state, hold exactly the
not-yet-consumed events. -/
theorem ringBuffer_slot_range_claim_false :
    RBReachable (iterTrace 4097) ∧
    ¬ ∀ i, (iterTrace 4097).buf.readIndex ≤ i →
        i < (iterTrace 4097).buf.writeIndex →
        (iterTrace 4097).buf.events (i % RING_BUFFER_SIZE) =
          (iterTrace 4097).submitted[i]? := by
  refine ⟨iterTrace_reachable 4097, ?_⟩
  intro hall
  have h0 := hall 0 (by rw [iterTrace_read]) (by rw [iterTrace_write]; norm_num)
  have hslot : (iterTrace 4097).buf.events (0 % RING_BUFFER_SIZE) =
      some (mkEvt 4096) := by
    have h := iterTrace_slot (i := 4096) (n := 4097) (by norm_num)
      (by norm_num [RING_BUFFER_SIZE])
    rw [show (4096 : Nat) % RING_BUFFER_SIZE = 0 % RING_BUFFER_SIZE from by
      norm_num [RING_BUFFER_SIZE]] at h
    exact h
  rw [h0, iterTrace_submitted, List.getElem?_map,
    List.getElem?_range (by norm_num)] at hslot
  simp [mkEvt] at hslot

/-- C2 (amended): for every ThreadRingBuffer under the producer/aggregator
step relation, the write index is monotonically non-decreasing and is
advanced only by the owner's submit (a drain changes neither the write
index nor the slots); the read index is advanced only by the drain (a
submit leaves it unchanged) and in every reachable state never exceeds
the write index; and the slots at positions [readIndex, writeIndex)
taken modulo the capacity hold exactly those submitted-but-unconsumed
events that are among the most recent RING_BUFFER_SIZE submissions
(when writeIndex − readIndex ≤ RING_BUFFER_SIZE this is every
unconsumed event; older ones have been overwritten). -/
theorem ringBuffer_index_slot_invariant :
    (∀ s t, RBStep s t → s.buf.writeIndex ≤ t.buf.writeIndex) ∧
    (∀ s k, (traceDrain s k).buf.writeIndex = s.buf.writeIndex ∧
      (traceDrain s k).buf.events = s.buf.events) ∧
    (∀ s e, (traceSubmit s e).buf.readIndex = s.buf.readIndex) ∧
    (∀ t, RBReachable t →
      t.buf.readIndex ≤ t.buf.writeIndex ∧
      ∀ i, t.buf.readIndex ≤ i → i < t.buf.writeIndex →
        t.buf.writeIndex ≤ i + RING_BUFFER_SIZE →
        t.buf.events (i % RING_BUFFER_SIZE) = t.submitted[i]?) := by
  refine ⟨?_, ?_, ?_, ?_⟩
  · intro s t hstep
    cases hstep with
    | submit e => simp [traceSubmit, submitEvent]
    | drain k h1 h2 => simp [traceDrain]
  · intro s k
    exact ⟨rfl, rfl⟩
  · intro s e
    rfl
  · intro t ht
    obtain ⟨hlen, hrw, hslots⟩ := rbInv_reachable ht
    exact ⟨hrw, fun i h1 h2 h3 => hslots i h2 h3⟩

theorem ringBuffer_index_slot_invariant_witness :
    (iterTrace 1).buf.readIndex ≤ (iterTrace 1).buf.writeIndex :=
  (ringBuffer_index_slot_invariant.2.2.2 (iterTrace 1)
    (iterTrace_reachable 1)).1

/-- C3: SubmitEvent never fails and never blocks: on every buffer state it
writes the event at slot `writeIndex % RING_BUFFER_SIZE` (for the
power-of-two capacity this is the masking `writeIndex & (capacity−1)`)
and advances the write index by one, leaving the read index alone.  When
the buffer has wrapped (writeIndex − readIndex ≥ capacity), the
overwritten slot is the one holding the oldest still-present unconsumed
event (submission index writeIndex − capacity, itself ≥ readIndex), and
every younger unconsumed event survives the submit: the consumable set
loses only the oldest entry. -/
theorem submitEvent_total_overwrites_oldest (t : RBTrace)
    (ht : RBReachable t) (e : TimingEvent) :
    (submitEvent t.buf e).writeIndex = t.buf.writeIndex + 1 ∧
    (submitEvent t.buf e).readIndex = t.buf.readIndex ∧
    (submitEvent t.buf e).events (t.buf.writeIndex % RING_BUFFER_SIZE) =
      some e ∧
    (t.buf.readIndex + RING_BUFFER_SIZE ≤ t.buf.writeIndex →
      t.buf.readIndex ≤ t.buf.writeIndex - RING_BUFFER_SIZE ∧
      t.buf.events (t.buf.writeIndex % RING_BUFFER_SIZE) =
        t.submitted[t.buf.writeIndex - RING_BUFFER_SIZE]? ∧
      ∀ i, t.buf.writeIndex - RING_BUFFER_SIZE < i → i < t.buf.writeIndex →
        (submitEvent t.buf e).events (i % RING_BUFFER_SIZE) =
          t.submitted[i]?) := by
  obtain ⟨hlen, hrw, hslots⟩ := rbInv_reachable ht
  have hcap : RING_BUFFER_SIZE = 4096 := rfl
  refine ⟨rfl, rfl, ?_, ?_⟩
  · simp [submitEvent]
  · intro hwrap
    refine ⟨by omega, ?_, ?_⟩
    · have hs := hslots (t.buf.writeIndex - RING_BUFFER_SIZE) (by omega)
        (by omega)
      rw [← hs]
      rw [← Nat.mod_eq_sub_mod (by omega)]
    · intro i hlow hhigh
      have hne : i % RING_BUFFER_SIZE ≠
          t.buf.writeIndex % RING_BUFFER_SIZE := by
        intro hmod
        exact mod_eq_of_close hhigh (by omega) hmod
      simp only [submitEvent]
      rw [Function.update_noteq hne]
      exact hslots i hhigh (by omega)

theorem submitEvent_total_overwrites_oldest_witness :
    (submitEvent initTrace.buf (mkEvt 0)).writeIndex =
      initTrace.buf.writeIndex + 1 :=
  (submitEvent_total_overwrites_oldest initTrace Relation.ReflTransGen.refl
    (mkEvt 0)).1

/-- `Profiler::DisplayData` from the source header: two independent lists
of (path, ProfileEntry) pairs. -/
structure DisplayData where
  renderThread : EntryTable
  otherThreads : EntryTable
  deriving DecidableEq

/-- An entry with every field at its in-class default from the header. -/
def defaultEntry : ProfileEntry := {}

/-- Modelled from the spec: the snapshot publisher's state (spec 4.4):
a forced-update flag, the time of the last publish (`m_lastUpdateTime`)
and the published snapshot (`m_cachedDisplayData`). -/
structure SnapshotPublisher where
  forced : Bool
  lastUpdate : ℚ
  cached : DisplayData
  deriving DecidableEq

/-- Modelled from the spec: `ShouldUpdate()` "returns true if a
forced-update flag is set or the elapsed time since the last publish
exceeds a fixed interval (default 1000 ms)". -/
def shouldUpdate (s : SnapshotPublisher) (now : ℚ) : Bool :=
  s.forced || now - s.lastUpdate > UPDATE_INTERVAL_MS

/-- Modelled from the spec: `Invalidate()` sets the forced flag. -/
def invalidate (s : SnapshotPublisher) : SnapshotPublisher :=
  { s with forced := true }

/-- Modelled from the spec: the publish step of one aggregation cycle
(spec 4.3 step 6 and 4.4): copy the cycle's result into the snapshot
only when `ShouldUpdate()` holds, then reset the timer and clear the
forced flag (`MarkUpdated()`); otherwise leave the snapshot alone. -/
def publishCycle (s : SnapshotPublisher) (now : ℚ) (d : DisplayData) :
    SnapshotPublisher :=
  if shouldUpdate s now then
    { forced := false, lastUpdate := now, cached := d }
  else s

/-- `Profiler::GetProfileData`: returns the published snapshot. -/
def getProfileData (s : SnapshotPublisher) : DisplayData := s.cached

/-- A sequence of aggregation cycles: each publishes (or not) its result
at its time. -/
def runCycles (s : SnapshotPublisher) (cycles : List (ℚ × DisplayData)) :
    SnapshotPublisher :=
  cycles.foldl (fun st c => publishCycle st c.1 c.2) s

theorem runCycles_no_publish (cycles : List (ℚ × DisplayData)) :
    ∀ s : SnapshotPublisher, s.forced = false →
      (∀ c ∈ cycles, c.1 - s.lastUpdate < UPDATE_INTERVAL_MS) →
      runCycles s cycles = s := by
  induction cycles with
  | nil => intro s _ _; rfl
  | cons c rest ih =>
    intro s hforced hclose
    have hc : c.1 - s.lastUpdate < UPDATE_INTERVAL_MS :=
      hclose c (List.mem_cons_self c rest)
    have hns : shouldUpdate s c.1 = false := by
      simp [shouldUpdate, hforced]
      linarith
    have hstep : publishCycle s c.1 c.2 = s := by
      simp [publishCycle, hns]
    calc runCycles s (c :: rest)
        = runCycles (publishCycle s c.1 c.2) rest := rfl
      _ = runCycles s rest := by rw [hstep]
      _ = s := ih s hforced
            (fun x hx => hclose x (List.mem_cons_of_mem c hx))

/-- C4: the publisher is throttled.  A cycle publishes if and only if the
forced flag is set or the elapsed time since the last publish exceeds
UPDATE_INTERVAL_MS = 1000 ms; with no invalidation, any run of cycles all
within the interval of the last publish leaves the published DisplayData
bitwise unchanged, so two queries in that span return identical data; and
after `Invalidate()` the next cycle republishes regardless of elapsed
time. -/
theorem publish_throttling :
    (∀ (s : SnapshotPublisher) (now : ℚ),
      shouldUpdate s now = true ↔
        (s.forced = true ∨ now - s.lastUpdate > UPDATE_INTERVAL_MS)) ∧
    (∀ (s : SnapshotPublisher) (now : ℚ) (d : DisplayData),
      shouldUpdate s now = true →
        publishCycle s now d =
          { forced := false, lastUpdate := now, cached := d }) ∧
    (∀ (s : SnapshotPublisher) (now : ℚ) (d : DisplayData),
      shouldUpdate s now = false → publishCycle s now d = s) ∧
    (∀ (s : SnapshotPublisher) (cycles : List (ℚ × DisplayData)),
      s.forced = false →
      (∀ c ∈ cycles, c.1 - s.lastUpdate < UPDATE_INTERVAL_MS) →
      getProfileData (runCycles s cycles) = getProfileData s) ∧
    (∀ (s : SnapshotPublisher) (now : ℚ) (d : DisplayData),
      publishCycle (invalidate s) now d =
        { forced := false, lastUpdate := now, cached := d }) := by
  refine ⟨?_, ?_, ?_, ?_, ?_⟩
  · intro s now
    simp [shouldUpdate]
  · intro s now d h
    simp [publishCycle, h]
  · intro s now d h
    simp [publishCycle, h]
  · intro s cycles hforced hclose
    rw [runCycles_no_publish cycles s hforced hclose]
  · intro s now d
    simp [publishCycle, shouldUpdate, invalidate]

/-- An empty snapshot. -/
def emptyDisplay : DisplayData := { renderThread := [], otherThreads := [] }

/-- A publisher that has just published at time 0. -/
def justPublished : SnapshotPublisher :=
  { forced := false, lastUpdate := 0, cached := emptyDisplay }

/-- A one-entry snapshot produced by a later cycle. -/
def oneEntryDisplay : DisplayData :=
  { renderThread := [("x", defaultEntry)], otherThreads := [] }

theorem publish_throttling_witness :
    getProfileData (runCycles justPublished [(500, oneEntryDisplay)]) =
      getProfileData justPublished :=
  publish_throttling.2.2.2.1 justPublished [(500, oneEntryDisplay)] rfl (by
    intro c hc
    simp at hc
    rw [hc]
    norm_num [UPDATE_INTERVAL_MS, justPublished])

/-- Modelled from the spec: one roll step (spec 4.3 step 3): fold the
cycle's total into the rolling window, newest sample first, and "drop
the oldest sample once the window exceeds its fixed length"
(MAX_FRAMES_FOR_AVERAGING = 360 samples). -/
def rollWindow (w : List ℚ) (t : ℚ) : List ℚ :=
  List.take MAX_FRAMES_FOR_AVERAGING (t :: w)

/-- Modelled from the spec: the rolling average is the window's mean
(0 for an empty window). -/
def rollingAverage (w : List ℚ) : ℚ :=
  if w.length = 0 then 0 else w.sum / (w.length : ℚ)

/-- A sequence of aggregation cycles rolling the per-cycle totals `ts`
into the window. -/
def runRolls (w : List ℚ) (ts : List ℚ) : List ℚ := ts.foldl rollWindow w

theorem take_append_take (n : Nat) (a b : List ℚ) :
    List.take n (a ++ List.take n b) = List.take n (a ++ b) := by
  rw [List.take_append_eq_append_take, List.take_append_eq_append_take,
    List.take_take]
  have : min (n - a.length) n = n - a.length :=
    min_eq_left (Nat.sub_le n a.length)
  rw [this]

theorem runRolls_replicate (n : Nat) (T : ℚ) :
    ∀ w : List ℚ, w.length ≤ MAX_FRAMES_FOR_AVERAGING →
      runRolls w (List.replicate n T) =
        List.take MAX_FRAMES_FOR_AVERAGING (List.replicate n T ++ w) := by
  induction n with
  | zero =>
    intro w hw
    simpa [runRolls] using (List.take_of_length_le hw).symm
  | succ n ih =>
    intro w hw
    have hstep : runRolls w (List.replicate (n + 1) T)
        = runRolls (rollWindow w T) (List.replicate n T) := by
      rw [List.replicate_succ]
      rfl
    have hlen : (rollWindow w T).length ≤ MAX_FRAMES_FOR_AVERAGING := by
      simp [rollWindow]
    rw [hstep, ih (rollWindow w T) hlen, rollWindow, take_append_take]
    have : List.replicate n T ++ (T :: w)
        = List.replicate (n + 1) T ++ w := by
      rw [List.replicate_succ']
      simp
    rw [this]

/-- C5: the rolling window is bounded to MAX_FRAMES_FOR_AVERAGING = 360
samples in every reachable window state, and after more than 360
consecutive cycles folding a constant per-cycle time T the window is
exactly 360 copies of T, so the rolling average equals T exactly. -/
theorem rolling_window_bounded_and_converges :
    (∀ (w : List ℚ) (ts : List ℚ), w.length ≤ MAX_FRAMES_FOR_AVERAGING →
      (runRolls w ts).length ≤ MAX_FRAMES_FOR_AVERAGING) ∧
    (∀ (w : List ℚ) (T : ℚ) (n : Nat),
      w.length ≤ MAX_FRAMES_FOR_AVERAGING →
      MAX_FRAMES_FOR_AVERAGING < n →
      runRolls w (List.replicate n T) =
        List.replicate MAX_FRAMES_FOR_AVERAGING T ∧
      rollingAverage (runRolls w (List.replicate n T)) = T) := by
  constructor
  · intro w ts
    induction ts generalizing w with
    | nil => intro hw; exact hw
    | cons t rest ih =>
      intro hw
      have : runRolls w (t :: rest) = runRolls (rollWindow w t) rest := rfl
      rw [this]
      exact ih (rollWindow w t) (by simp [rollWindow])
  · intro w T n hw hn
    have hrep : runRolls w (List.replicate n T)
        = List.replicate MAX_FRAMES_FOR_AVERAGING T := by
      rw [runRolls_replicate n T w hw, List.take_append_eq_append_take,
        List.take_replicate, List.length_replicate,
        Nat.sub_eq_zero_of_le (le_of_lt hn), List.take_zero,
        List.append_nil, min_eq_left (le_of_lt hn)]
    refine ⟨hrep, ?_⟩
    rw [hrep]
    have hlen : (List.replicate MAX_FRAMES_FOR_AVERAGING T).length
        = MAX_FRAMES_FOR_AVERAGING := List.length_replicate _ _
    rw [rollingAverage, if_neg (by rw [hlen]; norm_num [MAX_FRAMES_FOR_AVERAGING])]
    rw [List.sum_replicate, hlen, nsmul_eq_mul]
    exact mul_div_cancel_left₀ T (by norm_num [MAX_FRAMES_FOR_AVERAGING])

theorem rolling_window_bounded_and_converges_witness :
    runRolls [] (List.replicate 361 1) =
      List.replicate MAX_FRAMES_FOR_AVERAGING 1 ∧
    rollingAverage (runRolls [] (List.replicate 361 1)) = 1 :=
  rolling_window_bounded_and_converges.2 [] 1 361 (by decide) (by decide)

/-- Modelled from the spec: stale-entry eviction (spec 4.3 step 4):
"remove entries whose last-update timestamp is older than a fixed
staleness threshold".  The threshold is a parameter: the header declares
only the `lastUpdateTime` field, no threshold constant. -/
def evictStale (tbl : EntryTable) (now staleness : ℚ) : EntryTable :=
  tbl.filter fun kv => ¬ (now - kv.2.lastUpdateTime > staleness)

theorem lookupEntry_eq_none_of_not_mem (tbl : EntryTable) (k : String)
    (h : k ∉ tbl.map Prod.fst) : lookupEntry tbl k = none := by
  induction tbl with
  | nil => rfl
  | cons kv rest ih =>
    simp only [List.map_cons, List.mem_cons] at h
    push_neg at h
    have hk : ¬ kv.1 = k := fun hkk => h.1 hkk.symm
    simp [lookupEntry, hk]
    exact ih h.2

theorem lookupEntry_filter_none (tbl : EntryTable)
    (p : String × ProfileEntry → Bool) (k : String)
    (h : lookupEntry tbl k = none) :
    lookupEntry (tbl.filter p) k = none := by
  induction tbl with
  | nil => rfl
  | cons kv rest ih =>
    by_cases hk : kv.1 = k
    · simp [lookupEntry, hk] at h
    · simp only [lookupEntry, if_neg hk] at h
      by_cases hp : p kv
      · simp [List.filter_cons_of_pos hp, lookupEntry, hk]
        exact ih h
      · simp [List.filter_cons_of_neg hp]
        exact ih h

theorem lookupEntry_filter (p : String × ProfileEntry → Bool) (k : String) :
    ∀ tbl : EntryTable, (tbl.map Prod.fst).Nodup →
      lookupEntry (tbl.filter p) k =
        match lookupEntry tbl k with
        | none => none
        | some v => if p (k, v) then some v else none := by
  intro tbl
  induction tbl with
  | nil =>
    intro _
    rfl
  | cons kv rest ih =>
    obtain ⟨k1, v1⟩ := kv
    intro hnd
    simp only [List.map_cons, List.nodup_cons] at hnd
    by_cases hk : k1 = k
    · subst hk
      rw [List.filter_cons]
      by_cases hp : p (k1, v1) = true
      · rw [if_pos hp]
        simp [lookupEntry, hp]
      · rw [if_neg hp]
        have hnone : lookupEntry rest k1 = none :=
          lookupEntry_eq_none_of_not_mem rest k1 hnd.1
        rw [lookupEntry_filter_none rest p k1 hnone]
        simp [lookupEntry, hp]
    · rw [List.filter_cons]
      have hlook : lookupEntry ((k1, v1) :: rest) k = lookupEntry rest k := by
        simp [lookupEntry, hk]
      rw [hlook]
      by_cases hp : p (k1, v1) = true
      · rw [if_pos hp]
        have hskip : lookupEntry ((k1, v1) :: rest.filter p) k
            = lookupEntry (rest.filter p) k := by
          simp [lookupEntry, hk]
        rw [hskip, ih hnd.2]
      · rw [if_neg hp]
        rw [ih hnd.2]

theorem lookupEntry_evictStale_none (tbl : EntryTable) (now staleness : ℚ)
    (k : String) (v : ProfileEntry)
    (hnd : (tbl.map Prod.fst).Nodup)
    (hfound : lookupEntry tbl k = some v)
    (hstale : now - v.lastUpdateTime > staleness) :
    lookupEntry (evictStale tbl now staleness) k = none := by
  rw [evictStale,
    lookupEntry_filter (fun kv => ¬ (now - kv.2.lastUpdateTime > staleness))
      k tbl hnd,
    hfound]
  simp [hstale]

/-- Modelled from the spec: the evict-then-publish tail of one aggregation
cycle (spec 4.3 steps 4 and 6) over the two per-group tables. -/
def aggregatorEvictPublish (s : SnapshotPublisher) (tblR tblO : EntryTable)
    (now staleness : ℚ) : SnapshotPublisher :=
  publishCycle s now
    { renderThread := evictStale tblR now staleness
      otherThreads := evictStale tblO now staleness }

/-- C8: an entry whose last update is older than the staleness threshold
at the start of a cycle is removed by the evict step and is absent from
the snapshot the cycle publishes (for a table without duplicate keys,
as the aggregator's tables are maps). -/
theorem stale_entries_evicted (s : SnapshotPublisher)
    (tblR tblO : EntryTable) (now staleness : ℚ) (k : String)
    (v : ProfileEntry) (hnd : (tblR.map Prod.fst).Nodup)
    (hfound : lookupEntry tblR k = some v)
    (hstale : now - v.lastUpdateTime > staleness)
    (hpub : shouldUpdate s now = true) :
    lookupEntry (evictStale tblR now staleness) k = none ∧
    lookupEntry
      (getProfileData
        (aggregatorEvictPublish s tblR tblO now staleness)).renderThread
      k = none := by
  have hout := lookupEntry_evictStale_none tblR now staleness k v hnd
    hfound hstale
  refine ⟨hout, ?_⟩
  rw [aggregatorEvictPublish, publishCycle, if_pos hpub]
  exact hout

/-- A one-entry table whose entry was last updated at time 0. -/
def staleTable : EntryTable := [("Old", defaultEntry)]

theorem stale_entries_evicted_witness :
    lookupEntry (evictStale staleTable 10 5) "Old" = none ∧
    lookupEntry
      (getProfileData
        (aggregatorEvictPublish (invalidate justPublished) staleTable []
          10 5)).renderThread
      "Old" = none :=
  stale_entries_evicted (invalidate justPublished) staleTable [] 10 5
    "Old" defaultEntry (by simp [staleTable]) (by simp [staleTable, lookupEntry])
    (by norm_num [defaultEntry]) (by simp [shouldUpdate, invalidate, justPublished])

/-- `Profiler::Profiler` singleton state visible to the enable toggle:
`m_enabled` plus the aggregator-owned tables (`m_renderThreadEntries`,
`m_otherThreadEntries`). -/
structure ProfilerState where
  enabled : Bool
  renderThreadEntries : EntryTable
  otherThreadEntries : EntryTable

/-- `Profiler::SetEnabled` from the source header:
`void SetEnabled(bool enabled) { m_enabled = enabled; }`. -/
def SetEnabled (p : ProfilerState) (enabled : Bool) : ProfilerState :=
  { p with enabled := enabled }

/-- `Profiler::IsEnabled` from the source header:
`bool IsEnabled() const { return m_enabled; }`. -/
def IsEnabled (p : ProfilerState) : Bool := p.enabled

/-- The full hierarchical path of a newly entered scope: the stack top
(the enclosing scope's path) + "/" + the section name, or just the
section name at the root. -/
def scopePath (b : ThreadRingBuffer) (name : String) : String :=
  match b.scopeStack.head? with
  | none => name
  | some p => p ++ "/" ++ name

/-- Modelled from the spec: the `ScopedTimer` constructor (spec 4.1, 6):
when the profiler is enabled it records the start time and pushes the
scope's full path onto the calling thread's scope stack; when disabled,
capture is a no-op (`m_active` is false). -/
def scopedTimerCtor (enabled : Bool) (b : ThreadRingBuffer)
    (name : String) : ThreadRingBuffer :=
  if enabled then { b with scopeStack := scopePath b name :: b.scopeStack }
  else b

/-- Modelled from the spec: the `ScopedTimer` destructor (spec 4.1): when
active it pops the scope stack and submits one TimingEvent carrying the
popped path, the new stack top as parent, the measured duration and the
`uint8_t` stack depth; when inactive (constructed while disabled) it is
a no-op. -/
def scopedTimerDtor (active : Bool) (b : ThreadRingBuffer)
    (durationMs : ℚ) : ThreadRingBuffer :=
  if active then
    match b.scopeStack with
    | [] => b
    | top :: rest =>
        submitEvent { b with scopeStack := rest }
          (mkTimingEvent top rest.head? durationMs b.threadId rest.length
            b.isRenderThread)
  else b

/-- C9: with the profiler disabled (SetEnabled false), constructing and
destroying a ScopedTimer leaves the thread's ring buffer (write index,
slots, scope stack) completely unchanged, the aggregator's entry tables
are untouched, and IsEnabled() reports false. -/
theorem disabled_capture_noop (p : ProfilerState) (b : ThreadRingBuffer)
    (name : String) (durationMs : ℚ) :
    scopedTimerDtor false (scopedTimerCtor false b name) durationMs = b ∧
    (scopedTimerCtor false b name).writeIndex = b.writeIndex ∧
    (scopedTimerCtor false b name).events = b.events ∧
    (scopedTimerCtor false b name).scopeStack = b.scopeStack ∧
    IsEnabled (SetEnabled p false) = false ∧
    (SetEnabled p false).renderThreadEntries = p.renderThreadEntries ∧
    (SetEnabled p false).otherThreadEntries = p.otherThreadEntries :=
  ⟨rfl, rfl, rfl, rfl, rfl, rfl, rfl⟩

/-- C10: a capture closing a scope at true nesting depth `rest.length`
(the number of still-open enclosing scopes) stores
`rest.length % 256` in the event's `uint8_t` depth field, carried
through SubmitEvent into the ring-buffer slot; at depths ≥ 256 the
recorded depth therefore differs from the true depth. -/
theorem depth_recorded_mod256 (b : ThreadRingBuffer) (top : String)
    (rest : List String) (durationMs : ℚ)
    (hstack : b.scopeStack = top :: rest) :
    ((scopedTimerDtor true b durationMs).events
        (b.writeIndex % RING_BUFFER_SIZE)).map (fun evt => evt.depth) =
      some (rest.length % 256) ∧
    (256 ≤ rest.length →
      ((scopedTimerDtor true b durationMs).events
          (b.writeIndex % RING_BUFFER_SIZE)).map (fun evt => evt.depth) ≠
        some rest.length) := by
  have hev : (scopedTimerDtor true b durationMs).events
      (b.writeIndex % RING_BUFFER_SIZE) =
      some (mkTimingEvent top rest.head? durationMs b.threadId rest.length
        b.isRenderThread) := by
    rw [scopedTimerDtor, if_pos rfl, hstack]
    simp [submitEvent]
  rw [hev]
  refine ⟨rfl, ?_⟩
  intro hdeep heq
  have : rest.length % 256 = rest.length := by
    simpa [mkTimingEvent] using heq
  have hlt : rest.length % 256 < 256 := Nat.mod_lt _ (by norm_num)
  omega

/-- A buffer with 257 open scopes: the closing scope's true depth is 256. -/
def deepBuffer : ThreadRingBuffer :=
  { initBuffer with scopeStack := "x" :: List.replicate 256 "y" }

theorem depth_recorded_mod256_witness :
    ((scopedTimerDtor true deepBuffer 1).events
        (deepBuffer.writeIndex % RING_BUFFER_SIZE)).map (fun evt => evt.depth) =
      some ((List.replicate 256 "y").length % 256) ∧
    (256 ≤ (List.replicate 256 "y").length →
      ((scopedTimerDtor true deepBuffer 1).events
          (deepBuffer.writeIndex % RING_BUFFER_SIZE)).map
          (fun evt => evt.depth) ≠
        some (List.replicate 256 "y").length) :=
  depth_recorded_mod256 deepBuffer "x" (List.replicate 256 "y") 1 rfl

theorem totalOf_process (now : ℚ) (evs : List TimingEvent) (k : String) :
    totalOf (evs.foldl (foldEvent now) []) k =
      sumDur (evs.filter fun e => e.sectionName = k) := by
  have h := totalOf_foldl now k evs []
  have h0 : totalOf ([] : EntryTable) k = 0 := rfl
  rw [h0, zero_add] at h
  exact h

theorem parentOf_process (now : ℚ) (evs : List TimingEvent) (k : String) :
    parentOf (evs.foldl (foldEvent now) []) k =
      (evs.find? fun e => e.sectionName = k).map
        fun e => e.parentName.getD "" := by
  have h := parentOf_foldl now k evs []
  have h0 : parentOf ([] : EntryTable) k = none := rfl
  rw [h0] at h
  exact h

theorem depthOf_process (now : ℚ) (evs : List TimingEvent) (k : String) :
    depthOf (evs.foldl (foldEvent now) []) k =
      (evs.find? fun e => e.sectionName = k).map fun e => e.depth := by
  have h := depthOf_foldl now k evs []
  have h0 : depthOf ([] : EntryTable) k = none := rfl
  rw [h0] at h
  exact h

/-- Every entry of the folded base table is characterised by the drained
event stream: its total is the sum of the durations of the events with
its path, and its parent path and depth come from the first such event. -/
theorem base_entry_source (now : ℚ) (evs : List TimingEvent) (k : String)
    (v : ProfileEntry)
    (h : lookupEntry ((evs.foldl (foldEvent now) []) : EntryTable) k
      = some v) :
    v.totalTime = sumDur (evs.filter fun e => e.sectionName = k) ∧
    ∃ e0, (evs.find? fun e => e.sectionName = k) = some e0 ∧
      e0 ∈ evs ∧ e0.sectionName = k ∧
      v.parentPath = e0.parentName.getD "" ∧ v.depth = e0.depth := by
  constructor
  · have ht := totalOf_process now evs k
    have h0 : totalOf (evs.foldl (foldEvent now) []) k = v.totalTime := by
      simp [totalOf, h]
    rw [h0] at ht
    exact ht
  · have hp := parentOf_process now evs k
    have hd := depthOf_process now evs k
    have hpe : parentOf (evs.foldl (foldEvent now) []) k
        = some v.parentPath := by
      simp [parentOf, h]
    have hde : depthOf (evs.foldl (foldEvent now) []) k = some v.depth := by
      simp [depthOf, h]
    rw [hpe] at hp
    rw [hde] at hd
    cases hf : evs.find? fun e => e.sectionName = k with
    | none =>
      rw [hf] at hp
      simp at hp
    | some e0 =>
      rw [hf] at hp hd
      simp at hp hd
      refine ⟨e0, rfl, List.mem_of_find?_eq_some hf, ?_, hp, hd⟩
      have := List.find?_some hf
      simpa using this

/-- Stack-discipline consequence at the event level: events with the same
path always report the same parent. -/
def EventsConsistent (evs : List TimingEvent) : Prop :=
  ∀ e1 ∈ evs, ∀ e2 ∈ evs, e1.sectionName = e2.sectionName →
    e1.parentName = e2.parentName

/-- Measured durations are non-negative. -/
def NonNegDurations (evs : List TimingEvent) : Prop :=
  ∀ e ∈ evs, 0 ≤ e.durationMs

/-- Stack-discipline consequence at the event level: the total duration of
the scopes reporting parent p is contained in p's own total duration
(children run nested inside their parent, with no overlap). -/
def NestedDurations (evs : List TimingEvent) : Prop :=
  ∀ p : String,
    sumDur (evs.filter fun e => e.parentName = some p) ≤
      sumDur (evs.filter fun e => e.sectionName = p)

/-- Stack-discipline consequence at the event level: an event whose parent
is another event's path sits one level deeper. -/
def DepthConsistent (evs : List TimingEvent) : Prop :=
  ∀ e1 ∈ evs, ∀ e2 ∈ evs, e1.parentName = some e2.sectionName →
    e1.depth = e2.depth + 1

theorem sumDur_filter_nonneg (evs : List TimingEvent)
    (hnn : NonNegDurations evs) (p : TimingEvent → Prop) [DecidablePred p] :
    0 ≤ sumDur (evs.filter fun e => p e) :=
  sumDur_nonneg fun e he => hnn e (List.mem_of_mem_filter he)

/-- After pass two, every entry still corresponds to a base-table entry
with the same total time, parent path and depth. -/
theorem lookup_processEvents_toBase (now : ℚ) (evs : List TimingEvent)
    (k : String) (v : ProfileEntry)
    (h : lookupEntry (processEvents now evs) k = some v) :
    ∃ v0, lookupEntry ((evs.foldl (foldEvent now) []) : EntryTable) k
        = some v0 ∧
      v.totalTime = v0.totalTime ∧ v.parentPath = v0.parentPath ∧
      v.depth = v0.depth := by
  have hl : lookupEntry (processEvents now evs) k
      = (lookupEntry (evs.foldl (foldEvent now) []) k).map
          (fun w => { w with selfTime := w.totalTime - childTotalSum (evs.foldl (foldEvent now) []) k }) := by
    unfold processEvents computeSelfTimes
    exact lookupEntry_mapTable _ _ _
  rw [hl] at h
  cases hb : lookupEntry ((evs.foldl (foldEvent now) []) : EntryTable) k with
  | none =>
    rw [hb] at h
    simp at h
  | some v0 =>
    rw [hb] at h
    have hv : { v0 with selfTime := v0.totalTime - childTotalSum (evs.foldl (foldEvent now) []) k } = v := by
      simpa using h
    exact ⟨v0, rfl, by rw [← hv], by rw [← hv], by rw [← hv]⟩

/-- Under stack discipline, a child entry's total never exceeds its
parent entry's total. -/
theorem child_total_le_parent_total (now : ℚ) (evs : List TimingEvent)
    (hcons : EventsConsistent evs) (hnn : NonNegDurations evs)
    (hnest : NestedDurations evs) (k : String) (v : ProfileEntry)
    (hk : lookupEntry (processEvents now evs) k = some v)
    (hne : v.parentPath ≠ "") (p : ProfileEntry)
    (hp : lookupEntry (processEvents now evs) v.parentPath = some p) :
    v.totalTime ≤ p.totalTime := by
  obtain ⟨v0, hv0, hvt, hvp, _⟩ := lookup_processEvents_toBase now evs k v hk
  obtain ⟨p0, hp0, hpt, _, _⟩ :=
    lookup_processEvents_toBase now evs v.parentPath p hp
  obtain ⟨hvtot, e0, hfind, he0mem, he0name, he0par, _⟩ :=
    base_entry_source now evs k v0 hv0
  obtain ⟨hptot, _⟩ := base_entry_source now evs v.parentPath p0 hp0
  have hpar : e0.parentName = some v.parentPath := by
    rw [hvp] at hne ⊢
    rw [he0par] at hne ⊢
    cases hcase : e0.parentName with
    | none => rw [hcase] at hne; simp at hne
    | some q => simp
  have hstep1 : sumDur (evs.filter fun e => e.sectionName = k) ≤
      sumDur (evs.filter fun e => e.parentName = some v.parentPath) := by
    apply sum_filter_le_of_imp
    · intro e hemem hename
      have := hcons e hemem e0 he0mem (by rw [hename, he0name])
      rw [this, hpar]
    · exact hnn
  have hstep2 := hnest v.parentPath
  rw [hvt, hvtot, hpt, hptot]
  exact hstep1.trans hstep2

theorem lookup_calculateHierarchy (tbl : EntryTable) (T : ℚ) (k : String) :
    lookupEntry (calculateHierarchy tbl T) k =
      (lookupEntry tbl k).map (fun v =>
        { v with
            parentPercentage := hierPct tbl T v
            totalPercentage := safePct v.totalTime T }) := by
  unfold calculateHierarchy
  exact lookupEntry_mapTable _ _ _

/-- C6: after the hierarchise step, for every non-root entry whose parent
is present with non-zero total time, 0 ≤ parentPercentage ≤ 100 — under
the stack-discipline preconditions (consistent parents, non-negative
durations, child durations nested inside parents); and whenever the
reference total (parent's or group's) is zero the percentage computation
yields the safe default 0 instead of dividing by zero. -/
theorem parentPercentage_normalized (now : ℚ) (evs : List TimingEvent)
    (T : ℚ) (hcons : EventsConsistent evs) (hnn : NonNegDurations evs)
    (hnest : NestedDurations evs) (k : String) (v : ProfileEntry)
    (hv : lookupEntry (calculateHierarchy (processEvents now evs) T) k
      = some v) :
    (v.parentPath ≠ "" →
      ∀ p, lookupEntry (processEvents now evs) v.parentPath = some p →
        p.totalTime ≠ 0 →
        0 ≤ v.parentPercentage ∧ v.parentPercentage ≤ 100) ∧
    (v.parentPath ≠ "" →
      ∀ p, lookupEntry (processEvents now evs) v.parentPath = some p →
        p.totalTime = 0 → v.parentPercentage = 0) ∧
    (v.parentPath = "" → T = 0 → v.parentPercentage = 0) ∧
    (∀ x : ℚ, safePct x 0 = 0) := by
  have hl := lookup_calculateHierarchy (processEvents now evs) T k
  rw [hl] at hv
  cases hb : lookupEntry (processEvents now evs) k with
  | none =>
    rw [hb] at hv
    simp at hv
  | some v0 =>
    rw [hb] at hv
    have hveq : { v0 with
        parentPercentage := hierPct (processEvents now evs) T v0
        totalPercentage := safePct v0.totalTime T } = v := by
      simpa using hv
    have hpp : v.parentPath = v0.parentPath := by rw [← hveq]
    have hpct : v.parentPercentage
        = hierPct (processEvents now evs) T v0 := by rw [← hveq]
    have hnn0 : 0 ≤ v0.totalTime := by
      obtain ⟨vb, hvb, hvt, _, _⟩ := lookup_processEvents_toBase now evs k v0 hb
      obtain ⟨hvtot, _⟩ := base_entry_source now evs k vb hvb
      rw [hvt, hvtot]
      exact sumDur_filter_nonneg evs hnn _
    refine ⟨?_, ?_, ?_, ?_⟩
    · intro hne p hp hptne
      have hne0 : v0.parentPath ≠ "" := by rw [← hpp]; exact hne
      have hp0 : lookupEntry (processEvents now evs) v0.parentPath
          = some p := by rw [← hpp]; exact hp
      have hpct2 : v.parentPercentage = safePct v0.totalTime p.totalTime := by
        rw [hpct, hierPct, if_neg hne0, hp0]
      have hle : v0.totalTime ≤ p.totalTime :=
        child_total_le_parent_total now evs hcons hnn hnest k v0 hb hne0 p hp0
      have hppos : 0 < p.totalTime :=
        lt_of_le_of_ne (hnn0.trans hle) (Ne.symm hptne)
      rw [hpct2, safePct, if_neg hptne]
      constructor
      · exact div_nonneg (mul_nonneg (by norm_num) hnn0) hppos.le
      · rw [div_le_iff hppos]
        have h100 : (100 : ℚ) * v0.totalTime ≤ 100 * p.totalTime :=
          mul_le_mul_of_nonneg_left hle (by norm_num)
        linarith
    · intro hne p hp hptzero
      have hne0 : v0.parentPath ≠ "" := by rw [← hpp]; exact hne
      have hp0 : lookupEntry (processEvents now evs) v0.parentPath
          = some p := by rw [← hpp]; exact hp
      have hpct2 : v.parentPercentage = safePct v0.totalTime p.totalTime := by
        rw [hpct, hierPct, if_neg hne0, hp0]
      rw [hpct2, hptzero]
      simp [safePct]
    · intro hroot hT
      have hroot0 : v0.parentPath = "" := by rw [← hpp]; exact hroot
      rw [hpct, hierPct, if_pos hroot0, hT]
      simp [safePct]
    · intro x
      simp [safePct]

theorem parentPercentage_normalized_witness :
    renderOnlyEntry.parentPercentage = 0 :=
  (parentPercentage_normalized 0 [renderEvent] 0
    (by
      intro e1 h1 e2 h2 _
      simp at h1 h2
      rw [h1, h2])
    (by
      intro e he
      simp at he
      rw [he]
      norm_num [renderEvent])
    (by
      intro p
      have h1 : List.filter (fun e => e.parentName = some p) [renderEvent]
          = [] := by
        simp [renderEvent]
      rw [h1]
      by_cases hp : "Render" = p
      · have h2 : List.filter (fun e => e.sectionName = p) [renderEvent]
            = [renderEvent] := by
          simp [renderEvent, hp]
        rw [h2]
        norm_num [sumDur, renderEvent]
      · have h2 : List.filter (fun e => e.sectionName = p) [renderEvent]
            = [] := by
          simp [renderEvent, hp]
        rw [h2])
    "Render" renderOnlyEntry
    (by
      simp [calculateHierarchy, hierPct, mapTable, processEvents,
        computeSelfTimes, lookupEntry, foldEvent, freshEntry, childTotalSum,
        safePct, renderEvent, renderOnlyEntry])).2.2.1 rfl rfl

/-- Every entry of the processed table descends from a concrete drained
event: same path, and the entry's parent path and depth are the event's. -/
theorem entry_event (now : ℚ) (evs : List TimingEvent) (key : String)
    (w : ProfileEntry)
    (h : lookupEntry (processEvents now evs) key = some w) :
    ∃ e0, e0 ∈ evs ∧ e0.sectionName = key ∧
      w.parentPath = e0.parentName.getD "" ∧ w.depth = e0.depth := by
  obtain ⟨w0, hw0, _, hwp, hwd⟩ :=
    lookup_processEvents_toBase now evs key w h
  obtain ⟨_, e0, _, he0mem, he0name, he0par, he0dep⟩ :=
    base_entry_source now evs key w0 hw0
  exact ⟨e0, he0mem, he0name, by rw [hwp, he0par], by rw [hwd, he0dep]⟩

/-- C7: at the time percentages are computed, every non-root entry either
has its declared parent present in the table, or is treated as an
implicit root whose reference is the group total; when the parent is
present the entry's depth is the parent's depth plus one (under
stack-disciplined capture); and the hierarchise step never fails on an
entry whose declared parent is missing — the entry survives into the
output table. -/
theorem hierarchy_parent_exists_or_implicit_root (now : ℚ)
    (evs : List TimingEvent) (hdep : DepthConsistent evs) (T : ℚ)
    (k : String) (v : ProfileEntry)
    (hv : lookupEntry (processEvents now evs) k = some v)
    (hroot : v.parentPath ≠ "") :
    ((∃ p, lookupEntry (processEvents now evs) v.parentPath = some p) ∨
      lookupEntry (calculateHierarchy (processEvents now evs) T) k =
        some { v with
          parentPercentage := safePct v.totalTime T
          totalPercentage := safePct v.totalTime T }) ∧
    (∀ p, lookupEntry (processEvents now evs) v.parentPath = some p →
      v.depth = p.depth + 1) ∧
    (lookupEntry (calculateHierarchy (processEvents now evs) T) k).isSome
      = true := by
  refine ⟨?_, ?_, ?_⟩
  · cases hpar : lookupEntry (processEvents now evs) v.parentPath with
    | some p => exact Or.inl ⟨p, rfl⟩
    | none =>
      refine Or.inr ?_
      have hpct : hierPct (processEvents now evs) T v
          = safePct v.totalTime T := by
        rw [hierPct, if_neg hroot, hpar]
      rw [lookup_calculateHierarchy, hv]
      simp only [Option.map_some']
      rw [hpct]
  · intro p hp
    obtain ⟨e0, he0mem, he0name, he0par, he0dep⟩ :=
      entry_event now evs k v hv
    obtain ⟨e1, he1mem, he1name, _, he1dep⟩ :=
      entry_event now evs v.parentPath p hp
    have hparsome : e0.parentName = some v.parentPath := by
      rw [he0par] at hroot ⊢
      cases hcase : e0.parentName with
      | none => rw [hcase] at hroot; simp at hroot
      | some q => simp
    have hstep := hdep e0 he0mem e1 he1mem (by rw [hparsome, he1name])
    rw [he0dep, he1dep]
    exact hstep
  · rw [lookup_calculateHierarchy, hv]
    rfl

/-- The entry the two-event scenario fold produces for "Render/Draw". -/
def drawFoldedEntry : ProfileEntry :=
  { displayName := "Render/Draw"
    totalTime := 3
    selfTime := 3
    callCount := 1
    lastUpdateTime := 0
    parentPath := "Render"
    depth := 1 }

/-- The entry the two-event scenario fold produces for "Render". -/
def renderFoldedEntry : ProfileEntry :=
  { displayName := "Render"
    totalTime := 5
    selfTime := 2
    callCount := 1
    lastUpdateTime := 0
    parentPath := ""
    depth := 0 }

theorem hierarchy_parent_exists_or_implicit_root_witness :
    drawFoldedEntry.depth = renderFoldedEntry.depth + 1 :=
  (hierarchy_parent_exists_or_implicit_root 0 [renderEvent, drawEvent]
    (by
      intro e1 h1 e2 h2 hp
      simp at h1 h2
      rcases h1 with h1 | h1 <;> rcases h2 with h2 | h2 <;>
        rw [h1, h2] at hp ⊢ <;>
        simp [renderEvent, drawEvent] at hp ⊢)
    5 "Render/Draw" drawFoldedEntry
    (by
      simp [processEvents, computeSelfTimes, mapTable, lookupEntry,
        foldEvent, freshEntry, childTotalSum, renderEvent, drawEvent,
        drawFoldedEntry])
    (by simp [drawFoldedEntry])).2.1 renderFoldedEntry
    (by
      simp [processEvents, computeSelfTimes, mapTable, lookupEntry,
        foldEvent, freshEntry, childTotalSum, renderEvent, drawEvent,
        drawFoldedEntry, renderFoldedEntry] <;> norm_num)

end Profiler
